import Mathlib

/-!
A verification development for `pyomo.common.indexing.normalize_index`:
the index canonicalizer that flattens nested sequences into a single
tuple, classifying element types against two process-wide registries
(`native_types` and `sequence_types`).

The Python function is shallowly embedded: Python values become the
inductive type `Val` (tagged by the identifier of their Python class),
the two mutable global sets become an explicit `Registry` threaded
through the computation, raised exceptions become `Except` errors, and
the `while` loop becomes the recursive function `normLoop` (shown
well-founded), together with a fuel-indexed variant `normLoopFuel`
used to express termination of the unbounded loop.
-/

/-- Identifier of a Python class (`x.__class__`). -/
abbrev TypeId := Nat

/-- The ambient class-hierarchy facts consulted by `normalize_index`:
`isSeqSub t` embeds `issubclass(t, collections.abc.Sequence)` and
`isStrSub t` embeds `issubclass(t, str)`.  These are fixed for the
lifetime of the process. -/
structure TypeEnv where
  isSeqSub : TypeId → Bool
  isStrSub : TypeId → Bool

/-- A Python value as observed by `normalize_index`.

* `atom t v` — a value of class `t` that does not support iteration
  (calling `len`/`tuple` on it raises `TypeError`); `v` is an opaque
  payload distinguishing different values of the same class.
* `badseq t n` — a value of class `t` that reports length `n` but
  raises when indexed/iterated (a partially implemented sequence
  protocol).
* `seqv t es` — a value of class `t` whose iteration yields the
  elements `es` in order (tuples, lists, strings, custom sequences). -/
inductive Val where
  | atom (t : TypeId) (v : Int)
  | badseq (t : TypeId) (n : Nat)
  | seqv (t : TypeId) (elems : List Val)

/-- Exceptions that the embedded code can raise. -/
inductive PyErr where
  | typeError
  | indexError

/-- Embeds `x.__class__`. -/
def Val.cls : Val → TypeId
  | .atom t _ => t
  | .badseq t _ => t
  | .seqv t _ => t

/-- Embeds `len(x)`: raises `TypeError` on non-iterables, reports the claimed
length of a `badseq`, and the true length of a `seqv`. -/
def Val.lenOf : Val → Except PyErr Nat
  | .atom _ _ => .error .typeError
  | .badseq _ n => .ok n
  | .seqv _ es => .ok es.length

/-- Embeds `tuple(x)`: materializes the elements of a value, raising
`TypeError` if the value does not support (complete) iteration. -/
def Val.elemsOf : Val → Except PyErr (List Val)
  | .atom _ _ => .error .typeError
  | .badseq _ _ => .error .typeError
  | .seqv _ es => .ok es

mutual
/-- Total number of value nodes in a value (termination measure). -/
def Val.size : Val → Nat
  | .atom _ _ => 1
  | .badseq _ _ => 1
  | .seqv _ es => 1 + Val.sizeList es

/-- Total number of value nodes in a list of values. -/
def Val.sizeList : List Val → Nat
  | [] => 0
  | v :: vs => v.size + Val.sizeList vs
end

/-- The two process-wide classification sets.  `native_types` is the
(imported) set of classes treated as atomic scalars; `sequence_types`
is the module-level `{tuple, list}` set of classes treated as
flattenable containers.  Both grow as `normalize_index` learns new
types. -/
structure Registry where
  native_types : List TypeId
  sequence_types : List TypeId

/-- Embeds `native_types.add(t)`. -/
def Registry.addNative (reg : Registry) (t : TypeId) : Registry :=
  { reg with native_types := reg.native_types.insert t }

/-- Embeds `sequence_types.add(t)`. -/
def Registry.addSeq (reg : Registry) (t : TypeId) : Registry :=
  { reg with sequence_types := reg.sequence_types.insert t }

theorem Val.size_pos (v : Val) : 1 ≤ v.size := by
  cases v <;> simp [Val.size]

theorem Val.sizeList_append (a b : List Val) :
    Val.sizeList (a ++ b) = Val.sizeList a + Val.sizeList b := by
  induction a with
  | nil => simp [Val.sizeList]
  | cons v vs ih => simp [Val.sizeList, ih]; omega

theorem Val.elemsOf_ok {v : Val} {es : List Val} (h : v.elemsOf = .ok es) :
    v = .seqv v.cls es := by
  cases v <;> simp_all [Val.elemsOf, Val.cls]

theorem Val.sizeList_drop_succ {x : List Val} {i : Nat} {v : Val}
    (h : x[i]? = some v) :
    Val.sizeList (x.drop i) = v.size + Val.sizeList (x.drop (i + 1)) := by
  obtain ⟨hlt, hv⟩ := List.getElem?_eq_some.mp h
  rw [List.drop_eq_getElem_cons hlt, hv, Val.sizeList]

theorem drop_splice {x es : List Val} {i : Nat} (h : i ≤ x.length) :
    (x.take i ++ es ++ x.drop (i + 1)).drop i = es ++ x.drop (i + 1) := by
  rw [List.append_assoc, List.drop_append_of_le_length (by simp [h]),
    List.drop_take]
  simp

/-- The `while i < x_len` loop of `normalize_index`, embedded as a
recursive function.  State: the working tuple `x`, the tracked logical
length `x_len` (a separate variable in the source, updated on every
splice), the cursor `i`, and the global registry.  Each branch mirrors
one arm of the loop body, in source order:

1. `x[i].__class__ in native_types` — advance;
2. `x[i].__class__ in sequence_types` — `x_len += len(x[i]) - 1` then
   splice `tuple(x[i])` in place of position `i`, not advancing;
3. `issubclass(_xi_class, Sequence)` and `issubclass(_xi_class, str)`
   — add the class to `native_types` and advance;
4. `issubclass(_xi_class, Sequence)` otherwise — add the class to
   `sequence_types`, then `x_len += len(x[i]) - 1` and splice;
5. otherwise — advance.

Exceptions raised by `len`/`tuple` abort the loop, preserving any
registry mutation already performed (the `sequence_types.add` in
branch 4 happens before `len(x[i])` is evaluated, as in the source). -/
def normLoop (env : TypeEnv) (x : List Val) (xlen i : Nat) (reg : Registry) :
    Registry × Except PyErr (List Val × Nat) :=
  if i < xlen then
    match hx : x[i]? with
    | none => (reg, .error .indexError)
    | some v =>
      if v.cls ∈ reg.native_types then
        normLoop env x xlen (i + 1) reg
      else if v.cls ∈ reg.sequence_types then
        match v.lenOf with
        | .error e => (reg, .error e)
        | .ok n =>
          match he : v.elemsOf with
          | .error e => (reg, .error e)
          | .ok es =>
            normLoop env (x.take i ++ es ++ x.drop (i + 1)) (xlen - 1 + n) i reg
      else if env.isSeqSub v.cls then
        if env.isStrSub v.cls then
          normLoop env x xlen (i + 1) (reg.addNative v.cls)
        else
          match v.lenOf with
          | .error e => (reg.addSeq v.cls, .error e)
          | .ok n =>
            match he : v.elemsOf with
            | .error e => (reg.addSeq v.cls, .error e)
            | .ok es =>
              normLoop env (x.take i ++ es ++ x.drop (i + 1)) (xlen - 1 + n) i
                (reg.addSeq v.cls)
      else
        normLoop env x xlen (i + 1) reg
  else
    (reg, .ok (x, xlen))
termination_by Val.sizeList (x.drop i)
decreasing_by
  all_goals
    first
    | (rw [Val.sizeList_drop_succ hx]
       have := Val.size_pos v
       omega)
    | (obtain ⟨hlt, hv⟩ := List.getElem?_eq_some.mp hx
       rw [drop_splice (Nat.le_of_lt hlt), Val.sizeList_append,
         Val.sizeList_drop_succ hx, Val.elemsOf_ok he, Val.size]
       omega)

/-- The canonical result of `normalize_index`: a bare scalar or a
tuple. -/
inductive NormResult where
  | scalar (v : Val)
  | tup (vs : List Val)

/-- Embeds `normalize_index(x)`.  Mirrors the source line by line: the
`native_types` fast path returning `x` itself; the conversion of a
registered sequence via `tuple(x)` (or the wrap `(x,)` otherwise);
`x_len = len(x)`; the classification loop; and the final
single-element unwrap `if x_len == 1: return x[0]`. -/
def normalize_index (env : TypeEnv) (reg : Registry) (x : Val) :
    Registry × Except PyErr NormResult :=
  if x.cls ∈ reg.native_types then
    (reg, .ok (.scalar x))
  else
    match (if x.cls ∈ reg.sequence_types then x.elemsOf else .ok [x]) with
    | .error e => (reg, .error e)
    | .ok x0 =>
      match normLoop env x0 x0.length 0 reg with
      | (reg', .error e) => (reg', .error e)
      | (reg', .ok (x1, xlen)) =>
        if xlen = 1 then
          match x1[0]? with
          | none => (reg', .error .indexError)
          | some v0 => (reg', .ok (.scalar v0))
        else (reg', .ok (.tup x1))

/-- The module-level flag `normalize_index.flatten`, set to `True`
immediately after the function definition. -/
def normalize_index_flatten : Bool := true

/-- The function `normalize_index` as seen by a caller of the module: the global
flag `normalize_index.flatten` is in scope alongside the function.
The function body never reads the flag, so it is an unused
parameter. -/
def normalize_index_global (flatten : Bool) (env : TypeEnv) (reg : Registry)
    (x : Val) : Registry × Except PyErr NormResult :=
  normalize_index env reg x

/-- Fuel-indexed variant of `normLoop`, one unit of fuel per loop
iteration; `none` means the iteration budget was exhausted before the
loop exited.  Used to state termination of the unbounded `while`
loop. -/
def normLoopFuel (env : TypeEnv) :
    Nat → List Val → Nat → Nat → Registry →
      Option (Registry × Except PyErr (List Val × Nat))
  | 0, _, _, _, _ => none
  | fuel + 1, x, xlen, i, reg =>
    if i < xlen then
      match x[i]? with
      | none => some (reg, .error .indexError)
      | some v =>
        if v.cls ∈ reg.native_types then
          normLoopFuel env fuel x xlen (i + 1) reg
        else if v.cls ∈ reg.sequence_types then
          match v.lenOf with
          | .error e => some (reg, .error e)
          | .ok n =>
            match v.elemsOf with
            | .error e => some (reg, .error e)
            | .ok es =>
              normLoopFuel env fuel (x.take i ++ es ++ x.drop (i + 1))
                (xlen - 1 + n) i reg
        else if env.isSeqSub v.cls then
          if env.isStrSub v.cls then
            normLoopFuel env fuel x xlen (i + 1) (reg.addNative v.cls)
          else
            match v.lenOf with
            | .error e => some (reg.addSeq v.cls, .error e)
            | .ok n =>
              match v.elemsOf with
              | .error e => some (reg.addSeq v.cls, .error e)
              | .ok es =>
                normLoopFuel env fuel (x.take i ++ es ++ x.drop (i + 1))
                  (xlen - 1 + n) i (reg.addSeq v.cls)
        else
          normLoopFuel env fuel x xlen (i + 1) reg
    else
      some (reg, .ok (x, xlen))

/-- The classification that `normalize_index` effectively applies to an
element class `t` against registry state `reg`: `true` when a value of
class `t` at the cursor gets spliced (flattened), `false` when it is
kept as-is.  A class is spliced when it is not in `native_types` and
either is already in `sequence_types` or is an `abc.Sequence` subclass
that is not a `str` subclass. -/
def flattens (env : TypeEnv) (reg : Registry) (t : TypeId) : Bool :=
  !decide (t ∈ reg.native_types) &&
    (decide (t ∈ reg.sequence_types) || (env.isSeqSub t && !env.isStrSub t))

mutual
/-- Depth-first, left-to-right recursive flattening of a single value
with respect to a fixed registry state: the specification the loop of
`normalize_index` is proved to implement. -/
def flattenV (env : TypeEnv) (reg : Registry) : Val → List Val
  | .atom t v => [.atom t v]
  | .badseq t n => [.badseq t n]
  | .seqv t es =>
    if flattens env reg t then flattenL env reg es else [.seqv t es]

/-- Depth-first, left-to-right flattening of a list of values,
preserving sibling order. -/
def flattenL (env : TypeEnv) (reg : Registry) : List Val → List Val
  | [] => []
  | v :: vs => flattenV env reg v ++ flattenL env reg vs
end

mutual
/-- Well-behaved values: every subvalue whose class is classified as
flattenable honestly supports iteration (is a `seqv`), so processing
the value raises no exception.  Subvalues whose class is kept opaque
are unconstrained. -/
def GoodV (env : TypeEnv) (reg : Registry) : Val → Bool
  | .atom t _ => !flattens env reg t
  | .badseq _ _ => false
  | .seqv t es => !flattens env reg t || GoodL env reg es

/-- All values in the list are well-behaved. -/
def GoodL (env : TypeEnv) (reg : Registry) : List Val → Bool
  | [] => true
  | v :: vs => GoodV env reg v && GoodL env reg vs
end

/-- A value the classification loop has advanced past: its class is in
`native_types`, or is unregistered and not structurally a sequence (so
the final `else: i += 1` fallback keeps it).  Such values are kept
unchanged by any later pass. -/
def Resolved (env : TypeEnv) (reg : Registry) (v : Val) : Prop :=
  v.cls ∈ reg.native_types ∨
    (v.cls ∉ reg.sequence_types ∧ env.isSeqSub v.cls = false)

/-- How registry state is allowed to change across a call: both sets
only grow, every class newly added to `native_types` is a str-like
sequence subclass that was not registered as a sequence, and every
class newly added to `sequence_types` is a non-str sequence subclass
that was not registered as native. -/
structure RegEvolves (env : TypeEnv) (reg reg' : Registry) : Prop where
  natMono : ∀ t, t ∈ reg.native_types → t ∈ reg'.native_types
  seqMono : ∀ t, t ∈ reg.sequence_types → t ∈ reg'.sequence_types
  natNew : ∀ t, t ∈ reg'.native_types → t ∉ reg.native_types →
    env.isSeqSub t = true ∧ env.isStrSub t = true ∧ t ∉ reg.sequence_types
  seqNew : ∀ t, t ∈ reg'.sequence_types → t ∉ reg.sequence_types →
    env.isSeqSub t = true ∧ env.isStrSub t = false ∧ t ∉ reg.native_types

/-- No class is registered both as native and as a sequence. -/
def Registry.disjointSets (reg : Registry) : Prop :=
  ∀ t, t ∈ reg.native_types → t ∉ reg.sequence_types

/-- The final result policy of `normalize_index` on a flattened list:
a single element is unwrapped to a bare scalar, anything else
(including the empty list) is returned as a tuple. -/
def packResult : List Val → NormResult
  | [v] => .scalar v
  | vs => .tup vs

/-- Class identifier of `tuple`. -/
def tupleId : TypeId := 0
/-- Class identifier of `list`. -/
def listId : TypeId := 1
/-- Class identifier of `int`. -/
def intId : TypeId := 2
/-- Class identifier of `float`. -/
def floatId : TypeId := 3
/-- Class identifier of `str`. -/
def strId : TypeId := 4

/-- A `NormResult` fed back into `normalize_index` as a value: a
returned tuple is a value of class `tuple`. -/
def NormResult.toVal : NormResult → Val
  | .scalar v => v
  | .tup vs => .seqv tupleId vs

/-- The standard class hierarchy for the concrete model: `tuple`,
`list` and `str` are `abc.Sequence` subclasses, and `str` is the only
`str` subclass. -/
def envStd : TypeEnv where
  isSeqSub t := decide (t = tupleId) || decide (t = listId) || decide (t = strId)
  isStrSub t := decide (t = strId)

/-- Modelled from the spec: the initial registry state.  The
`sequence_types = {tuple, list}` half is the module-level set in the
source; the `native_types` half is imported from
`pyomo.common.numeric_types` (not among the analyzed sources) and is
described by the spec as pre-seeded with known atomic types such as
numbers and strings. -/
def initRegistry : Registry where
  native_types := [intId, floatId, strId]
  sequence_types := [tupleId, listId]

theorem RegEvolves.refl (env : TypeEnv) (reg : Registry) :
    RegEvolves env reg reg where
  natMono _ h := h
  seqMono _ h := h
  natNew _ h h' := absurd h h'
  seqNew _ h h' := absurd h h'

theorem RegEvolves.trans {env : TypeEnv} {r1 r2 r3 : Registry}
    (a : RegEvolves env r1 r2) (b : RegEvolves env r2 r3) :
    RegEvolves env r1 r3 where
  natMono t h := b.natMono t (a.natMono t h)
  seqMono t h := b.seqMono t (a.seqMono t h)
  natNew t h3 h1 := by
    by_cases h2 : t ∈ r2.native_types
    · obtain ⟨p, q, r⟩ := a.natNew t h2 h1
      exact ⟨p, q, r⟩
    · obtain ⟨p, q, r⟩ := b.natNew t h3 h2
      exact ⟨p, q, fun hs => r (a.seqMono t hs)⟩
  seqNew t h3 h1 := by
    by_cases h2 : t ∈ r2.sequence_types
    · obtain ⟨p, q, r⟩ := a.seqNew t h2 h1
      exact ⟨p, q, r⟩
    · obtain ⟨p, q, r⟩ := b.seqNew t h3 h2
      exact ⟨p, q, fun hs => r (a.natMono t hs)⟩

theorem regEvolves_addNative {env : TypeEnv} {reg : Registry} {t : TypeId}
    (h2 : t ∉ reg.sequence_types)
    (h3 : env.isSeqSub t = true) (h4 : env.isStrSub t = true) :
    RegEvolves env reg (reg.addNative t) where
  natMono s h := by simp [Registry.addNative, List.mem_insert_iff, h]
  seqMono s h := h
  natNew s hmem hnew := by
    rcases List.mem_insert_iff.mp hmem with rfl | h
    · exact ⟨h3, h4, h2⟩
    · exact absurd h hnew
  seqNew s hmem hnew := absurd hmem hnew

theorem regEvolves_addSeq {env : TypeEnv} {reg : Registry} {t : TypeId}
    (h1 : t ∉ reg.native_types)
    (h3 : env.isSeqSub t = true) (h4 : env.isStrSub t = false) :
    RegEvolves env reg (reg.addSeq t) where
  natMono s h := h
  seqMono s h := by simp [Registry.addSeq, List.mem_insert_iff, h]
  natNew s hmem hnew := absurd hmem hnew
  seqNew s hmem hnew := by
    rcases List.mem_insert_iff.mp hmem with rfl | h
    · exact ⟨h3, h4, h1⟩
    · exact absurd h hnew

theorem RegEvolves.flattens_eq {env : TypeEnv} {reg reg' : Registry}
    (h : RegEvolves env reg reg') (t : TypeId) :
    flattens env reg' t = flattens env reg t := by
  unfold flattens
  by_cases hn : t ∈ reg.native_types
  · have hn' : t ∈ reg'.native_types := h.natMono t hn
    simp [hn, hn']
  · by_cases hs : t ∈ reg.sequence_types
    · have hs' := h.seqMono t hs
      have hn' : t ∉ reg'.native_types := fun hmem => (h.natNew t hmem hn).2.2 hs
      simp [hn, hn', hs, hs']
    · by_cases hsub : env.isSeqSub t = true
      · by_cases hstr : env.isStrSub t = true
        · have hs' : t ∉ reg'.sequence_types := fun hmem => by
            have := (h.seqNew t hmem hs).2.1
            simp [hstr] at this
          by_cases hn' : t ∈ reg'.native_types <;>
            simp [hn, hs, hn', hs', hstr, hsub]
        · have hn' : t ∉ reg'.native_types := fun hmem => by
            have := (h.natNew t hmem hn).2.1
            simp [hstr] at this
          by_cases hs' : t ∈ reg'.sequence_types <;>
            simp [hn, hs, hn', hs', hstr, hsub]
      · have hn' : t ∉ reg'.native_types := fun hmem => by
          have := (h.natNew t hmem hn).1
          simp [hsub] at this
        have hs' : t ∉ reg'.sequence_types := fun hmem => by
          have := (h.seqNew t hmem hs).1
          simp [hsub] at this
        simp [hn, hn', hs, hs', hsub]

theorem RegEvolves.disjointSets_of {env : TypeEnv} {reg reg' : Registry}
    (h : RegEvolves env reg reg') (hd : reg.disjointSets) :
    reg'.disjointSets := by
  intro t hn hs
  by_cases h1 : t ∈ reg.native_types
  · by_cases h2 : t ∈ reg.sequence_types
    · exact hd t h1 h2
    · exact (h.seqNew t hs h2).2.2 h1
  · by_cases h2 : t ∈ reg.sequence_types
    · exact (h.natNew t hn h1).2.2 h2
    · have ha := (h.natNew t hn h1).2.1
      have hb := (h.seqNew t hs h2).2.1
      rw [ha] at hb
      exact Bool.true_eq_false.mp hb

theorem Resolved.mono {env : TypeEnv} {reg reg' : Registry} {v : Val}
    (h : Resolved env reg v) (he : RegEvolves env reg reg') :
    Resolved env reg' v := by
  rcases h with h | ⟨h1, h2⟩
  · exact Or.inl (he.natMono _ h)
  · refine Or.inr ⟨fun hmem => ?_, h2⟩
    have := (he.seqNew _ hmem h1).1
    rw [h2] at this
    exact Bool.false_eq_true.mp this

theorem normLoop_exit {env : TypeEnv} {x : List Val} {xlen i : Nat}
    {reg : Registry} (h : ¬ i < xlen) :
    normLoop env x xlen i reg = (reg, .ok (x, xlen)) := by
  rw [normLoop.eq_def, if_neg h]

theorem normLoop_oob {env : TypeEnv} {x : List Val} {xlen i : Nat}
    {reg : Registry} (h : i < xlen) (hx : x[i]? = none) :
    normLoop env x xlen i reg = (reg, .error .indexError) := by
  rw [normLoop.eq_def, if_pos h]
  split
  · rfl
  · next v heq => rw [hx] at heq; cases heq

theorem normLoop_native {env : TypeEnv} {x : List Val} {xlen i : Nat}
    {reg : Registry} {v : Val} (h : i < xlen) (hx : x[i]? = some v)
    (hn : v.cls ∈ reg.native_types) :
    normLoop env x xlen i reg = normLoop env x xlen (i + 1) reg := by
  rw [normLoop.eq_def, if_pos h]
  split
  · next heq => rw [hx] at heq; cases heq
  · next v' heq =>
    rw [hx] at heq
    injection heq with hv
    subst hv
    rw [if_pos hn]

theorem normLoop_seq {env : TypeEnv} {x : List Val} {xlen i : Nat}
    {reg : Registry} {t : TypeId} {es : List Val} (h : i < xlen)
    (hx : x[i]? = some (.seqv t es)) (hn : t ∉ reg.native_types)
    (hs : t ∈ reg.sequence_types) :
    normLoop env x xlen i reg =
      normLoop env (x.take i ++ es ++ x.drop (i + 1)) (xlen - 1 + es.length)
        i reg := by
  rw [normLoop.eq_def, if_pos h]
  split
  · next heq => rw [hx] at heq; cases heq
  · next v' heq =>
    rw [hx] at heq
    injection heq with hv
    subst hv
    simp only [Val.cls]
    rw [if_neg hn, if_pos hs]
    simp only [Val.lenOf]
    split
    · next e heq2 => simp [Val.elemsOf] at heq2
    · next es' heq2 =>
      have hes : es = es' := by simpa [Val.elemsOf] using heq2
      subst hes
      rfl

theorem normLoop_seq_badseq {env : TypeEnv} {x : List Val} {xlen i : Nat}
    {reg : Registry} {t : TypeId} {n : Nat} (h : i < xlen)
    (hx : x[i]? = some (.badseq t n)) (hn : t ∉ reg.native_types)
    (hs : t ∈ reg.sequence_types) :
    normLoop env x xlen i reg = (reg, .error .typeError) := by
  rw [normLoop.eq_def, if_pos h]
  split
  · next heq => rw [hx] at heq; cases heq
  · next v' heq =>
    rw [hx] at heq
    injection heq with hv
    subst hv
    simp only [Val.cls]
    rw [if_neg hn, if_pos hs]
    simp only [Val.lenOf]
    split
    · next e heq2 =>
      simp [Val.elemsOf] at heq2
      subst heq2
      rfl
    · next es' heq2 => simp [Val.elemsOf] at heq2

theorem normLoop_seq_atom {env : TypeEnv} {x : List Val} {xlen i : Nat}
    {reg : Registry} {t : TypeId} {p : Int} (h : i < xlen)
    (hx : x[i]? = some (.atom t p)) (hn : t ∉ reg.native_types)
    (hs : t ∈ reg.sequence_types) :
    normLoop env x xlen i reg = (reg, .error .typeError) := by
  rw [normLoop.eq_def, if_pos h]
  split
  · next heq => rw [hx] at heq; cases heq
  · next v' heq =>
    rw [hx] at heq
    injection heq with hv
    subst hv
    simp only [Val.cls]
    rw [if_neg hn, if_pos hs]
    simp only [Val.lenOf]

theorem normLoop_strlike {env : TypeEnv} {x : List Val} {xlen i : Nat}
    {reg : Registry} {v : Val} (h : i < xlen) (hx : x[i]? = some v)
    (hn : v.cls ∉ reg.native_types) (hs : v.cls ∉ reg.sequence_types)
    (h1 : env.isSeqSub v.cls = true) (h2 : env.isStrSub v.cls = true) :
    normLoop env x xlen i reg =
      normLoop env x xlen (i + 1) (reg.addNative v.cls) := by
  rw [normLoop.eq_def, if_pos h]
  split
  · next heq => rw [hx] at heq; cases heq
  · next v' heq =>
    rw [hx] at heq
    injection heq with hv
    subst hv
    rw [if_neg hn, if_neg hs, if_pos h1, if_pos h2]

theorem normLoop_learn {env : TypeEnv} {x : List Val} {xlen i : Nat}
    {reg : Registry} {t : TypeId} {es : List Val} (h : i < xlen)
    (hx : x[i]? = some (.seqv t es)) (hn : t ∉ reg.native_types)
    (hs : t ∉ reg.sequence_types)
    (h1 : env.isSeqSub t = true) (h2 : env.isStrSub t = false) :
    normLoop env x xlen i reg =
      normLoop env (x.take i ++ es ++ x.drop (i + 1)) (xlen - 1 + es.length)
        i (reg.addSeq t) := by
  rw [normLoop.eq_def, if_pos h]
  split
  · next heq => rw [hx] at heq; cases heq
  · next v' heq =>
    rw [hx] at heq
    injection heq with hv
    subst hv
    simp only [Val.cls]
    rw [if_neg hn, if_neg hs, if_pos h1, if_neg (by simp [h2])]
    simp only [Val.lenOf]
    split
    · next e heq2 => simp [Val.elemsOf] at heq2
    · next es' heq2 =>
      have hes : es = es' := by simpa [Val.elemsOf] using heq2
      subst hes
      rfl

theorem normLoop_learn_badseq {env : TypeEnv} {x : List Val} {xlen i : Nat}
    {reg : Registry} {t : TypeId} {n : Nat} (h : i < xlen)
    (hx : x[i]? = some (.badseq t n)) (hn : t ∉ reg.native_types)
    (hs : t ∉ reg.sequence_types)
    (h1 : env.isSeqSub t = true) (h2 : env.isStrSub t = false) :
    normLoop env x xlen i reg = (reg.addSeq t, .error .typeError) := by
  rw [normLoop.eq_def, if_pos h]
  split
  · next heq => rw [hx] at heq; cases heq
  · next v' heq =>
    rw [hx] at heq
    injection heq with hv
    subst hv
    simp only [Val.cls]
    rw [if_neg hn, if_neg hs, if_pos h1, if_neg (by simp [h2])]
    simp only [Val.lenOf]
    split
    · next e heq2 =>
      simp [Val.elemsOf] at heq2
      subst heq2
      rfl
    · next es' heq2 => simp [Val.elemsOf] at heq2

theorem normLoop_learn_atom {env : TypeEnv} {x : List Val} {xlen i : Nat}
    {reg : Registry} {t : TypeId} {p : Int} (h : i < xlen)
    (hx : x[i]? = some (.atom t p)) (hn : t ∉ reg.native_types)
    (hs : t ∉ reg.sequence_types)
    (h1 : env.isSeqSub t = true) (h2 : env.isStrSub t = false) :
    normLoop env x xlen i reg = (reg.addSeq t, .error .typeError) := by
  rw [normLoop.eq_def, if_pos h]
  split
  · next heq => rw [hx] at heq; cases heq
  · next v' heq =>
    rw [hx] at heq
    injection heq with hv
    subst hv
    simp only [Val.cls]
    rw [if_neg hn, if_neg hs, if_pos h1, if_neg (by simp [h2])]
    simp only [Val.lenOf]

theorem normLoop_other {env : TypeEnv} {x : List Val} {xlen i : Nat}
    {reg : Registry} {v : Val} (h : i < xlen) (hx : x[i]? = some v)
    (hn : v.cls ∉ reg.native_types) (hs : v.cls ∉ reg.sequence_types)
    (h1 : env.isSeqSub v.cls = false) :
    normLoop env x xlen i reg = normLoop env x xlen (i + 1) reg := by
  rw [normLoop.eq_def, if_pos h]
  split
  · next heq => rw [hx] at heq; cases heq
  · next v' heq =>
    rw [hx] at heq
    injection heq with hv
    subst hv
    rw [if_neg hn, if_neg hs, if_neg (by simp [h1])]

theorem flattens_false_of_native {env : TypeEnv} {reg : Registry} {t : TypeId}
    (h : t ∈ reg.native_types) : flattens env reg t = false := by
  simp [flattens, h]

theorem flattens_true_of_seq {env : TypeEnv} {reg : Registry} {t : TypeId}
    (h1 : t ∉ reg.native_types) (h2 : t ∈ reg.sequence_types) :
    flattens env reg t = true := by
  simp [flattens, h1, h2]

theorem flattens_true_of_sub {env : TypeEnv} {reg : Registry} {t : TypeId}
    (h1 : t ∉ reg.native_types) (h2 : env.isSeqSub t = true)
    (h3 : env.isStrSub t = false) : flattens env reg t = true := by
  simp [flattens, h1, h2, h3]

theorem flattens_false_of_strlike {env : TypeEnv} {reg : Registry} {t : TypeId}
    (h1 : t ∉ reg.sequence_types) (h2 : env.isStrSub t = true) :
    flattens env reg t = false := by
  simp [flattens, h1, h2]

theorem flattens_false_of_other {env : TypeEnv} {reg : Registry} {t : TypeId}
    (h1 : t ∉ reg.sequence_types) (h2 : env.isSeqSub t = false) :
    flattens env reg t = false := by
  simp [flattens, h1, h2]

theorem flattenV_keep {env : TypeEnv} {reg : Registry} {v : Val}
    (h : flattens env reg v.cls = false) : flattenV env reg v = [v] := by
  cases v with
  | atom t p => rw [flattenV]
  | badseq t n => rw [flattenV]
  | seqv t es =>
    rw [flattenV, if_neg]
    simp only [Val.cls] at h
    simp [h]

theorem flattenV_seqv {env : TypeEnv} {reg : Registry} {t : TypeId}
    {es : List Val} (h : flattens env reg t = true) :
    flattenV env reg (.seqv t es) = flattenL env reg es := by
  rw [flattenV, if_pos h]

theorem flattenL_append (env : TypeEnv) (reg : Registry) (a b : List Val) :
    flattenL env reg (a ++ b) = flattenL env reg a ++ flattenL env reg b := by
  induction a with
  | nil => simp [flattenL]
  | cons v vs ih => simp [flattenL, ih]

theorem flattenL_congr {env : TypeEnv} {reg reg' : Registry}
    (h : RegEvolves env reg reg') :
    ∀ l, flattenL env reg' l = flattenL env reg l := by
  apply flattenL.induct env reg
    (fun v => flattenV env reg' v = flattenV env reg v)
    (fun l => flattenL env reg' l = flattenL env reg l)
  · intro t p
    rw [flattenV, flattenV]
  · intro t n
    rw [flattenV, flattenV]
  · intro t es hf ih
    rw [flattenV_seqv (by rw [h.flattens_eq]; exact hf), flattenV_seqv hf, ih]
  · intro t es hf
    have hf' : flattens env reg t = false := Bool.not_eq_true _ |>.mp hf
    have hf'' : flattens env reg' t = false := by rw [h.flattens_eq]; exact hf'
    rw [@flattenV_keep env reg' (.seqv t es) (by simpa [Val.cls] using hf''),
      @flattenV_keep env reg (.seqv t es) (by simpa [Val.cls] using hf')]
  · rw [flattenL, flattenL]
  · intro v vs ih1 ih2
    rw [flattenL, flattenL, ih1, ih2]

theorem flattenV_congr {env : TypeEnv} {reg reg' : Registry}
    (h : RegEvolves env reg reg') (v : Val) :
    flattenV env reg' v = flattenV env reg v := by
  cases v with
  | atom t p => rw [flattenV, flattenV]
  | badseq t n => rw [flattenV, flattenV]
  | seqv t es =>
    rw [flattenV, flattenV, h.flattens_eq]
    by_cases hf : flattens env reg t
    · rw [if_pos hf, if_pos hf, flattenL_congr h]
    · rw [if_neg hf, if_neg hf]

theorem GoodL_congr {env : TypeEnv} {reg reg' : Registry}
    (h : RegEvolves env reg reg') :
    ∀ l, GoodL env reg' l = GoodL env reg l := by
  apply GoodL.induct env reg
    (fun v => GoodV env reg' v = GoodV env reg v)
    (fun l => GoodL env reg' l = GoodL env reg l)
  · intro t p
    rw [GoodV, GoodV, h.flattens_eq]
  · intro t n
    rw [GoodV, GoodV]
  · intro t es ih
    rw [GoodV, GoodV, h.flattens_eq, ih]
  · rw [GoodL, GoodL]
  · intro v vs ih1 ih2
    rw [GoodL, GoodL, ih1, ih2]

theorem GoodV_congr {env : TypeEnv} {reg reg' : Registry}
    (h : RegEvolves env reg reg') (v : Val) :
    GoodV env reg' v = GoodV env reg v := by
  cases v with
  | atom t p => rw [GoodV, GoodV, h.flattens_eq]
  | badseq t n => rw [GoodV, GoodV]
  | seqv t es => rw [GoodV, GoodV, h.flattens_eq, GoodL_congr h]

theorem GoodL_iff {env : TypeEnv} {reg : Registry} {l : List Val} :
    GoodL env reg l = true ↔ ∀ v ∈ l, GoodV env reg v = true := by
  induction l with
  | nil => simp [GoodL]
  | cons v vs ih => simp [GoodL, Bool.and_eq_true, ih]

theorem GoodV_seqv_elems {env : TypeEnv} {reg : Registry} {t : TypeId}
    {es : List Val} (h : GoodV env reg (.seqv t es) = true)
    (hf : flattens env reg t = true) : GoodL env reg es = true := by
  rw [GoodV] at h
  simpa [hf] using h

theorem GoodV_atom_keep {env : TypeEnv} {reg : Registry} {t : TypeId} {p : Int}
    (h : GoodV env reg (.atom t p) = true) : flattens env reg t = false := by
  rw [GoodV] at h
  simpa using h

theorem mem_drop_of_getElem? {x : List Val} {i : Nat} {v : Val}
    (hx : x[i]? = some v) : v ∈ x.drop i := by
  obtain ⟨hlt, hv⟩ := List.getElem?_eq_some.mp hx
  rw [List.drop_eq_getElem_cons hlt, hv]
  exact List.mem_cons_self _ _

theorem drop_succ_of_getElem? {x : List Val} {i : Nat} {v : Val}
    (hx : x[i]? = some v) : x.drop i = v :: x.drop (i + 1) := by
  obtain ⟨hlt, hv⟩ := List.getElem?_eq_some.mp hx
  rw [List.drop_eq_getElem_cons hlt, hv]

theorem take_succ_of_getElem? {x : List Val} {i : Nat} {v : Val}
    (hx : x[i]? = some v) : x.take (i + 1) = x.take i ++ [v] := by
  rw [List.take_succ, hx]
  rfl

theorem take_splice {x es : List Val} {i : Nat} (h : i ≤ x.length) :
    (x.take i ++ es ++ x.drop (i + 1)).take i = x.take i := by
  rw [List.append_assoc, List.take_append_of_le_length (by simp [h])]
  simp [h]

theorem length_splice {x es : List Val} {i : Nat} (h : i < x.length) :
    (x.take i ++ es ++ x.drop (i + 1)).length = x.length - 1 + es.length := by
  simp [List.length_take, List.length_drop]
  omega

/-- Main loop invariant.  Started at cursor `i` with the tracked length
in sync, a resolved prefix, and a well-behaved suffix, the loop
terminates successfully: it keeps the prefix, replaces the suffix by
its depth-first left-to-right flattening (computed against the entry
registry), keeps the tracked length in sync, only grows the registry by
learning, and leaves every element of the final list resolved. -/
theorem normLoop_main (env : TypeEnv) (x : List Val) (xlen i : Nat)
    (reg : Registry) :
    xlen = x.length →
    (∀ v ∈ x.drop i, GoodV env reg v = true) →
    (∀ v ∈ x.take i, Resolved env reg v) →
    ∃ reg',
      normLoop env x xlen i reg =
        (reg', .ok (x.take i ++ flattenL env reg (x.drop i),
          (x.take i ++ flattenL env reg (x.drop i)).length)) ∧
      RegEvolves env reg reg' ∧
      ∀ v ∈ x.take i ++ flattenL env reg (x.drop i), Resolved env reg' v := by
  induction x, xlen, i, reg using normLoop.induct env with
  | case1 x xlen i reg hlt hx =>
    intro h1 h2 h3
    have := List.getElem?_eq_none_iff.mp hx
    omega
  | case2 x xlen i reg hlt v hx hn ih =>
    intro h1 h2 h3
    have hd := drop_succ_of_getElem? hx
    have hkeep : flattenV env reg v = [v] :=
      flattenV_keep (flattens_false_of_native hn)
    obtain ⟨reg', hEq, hEv, hAll⟩ := ih h1
      (fun w hw => h2 w (by rw [hd]; exact List.mem_cons_of_mem _ hw))
      (fun w hw => by
        rw [take_succ_of_getElem? hx] at hw
        rcases List.mem_append.mp hw with hw | hw
        · exact h3 w hw
        · rw [List.mem_singleton.mp hw]; exact Or.inl hn)
    have hshuffle : x.take (i + 1) ++ flattenL env reg (x.drop (i + 1)) =
        x.take i ++ flattenL env reg (x.drop i) := by
      rw [take_succ_of_getElem? hx, hd, flattenL, hkeep]
      simp
    refine ⟨reg', ?_, hEv, ?_⟩
    · rw [normLoop_native hlt hx hn, hEq, hshuffle]
    · rw [← hshuffle]; exact hAll
  | case3 x xlen i reg hlt v hx hn hs e hlen =>
    intro h1 h2 h3
    exfalso
    have hg := h2 v (mem_drop_of_getElem? hx)
    cases v with
    | atom t p =>
      have hfalse := GoodV_atom_keep hg
      have htrue := @flattens_true_of_seq env reg _ hn hs
      simp only [Val.cls] at htrue
      rw [htrue] at hfalse
      cases hfalse
    | badseq t n => simp [Val.lenOf] at hlen
    | seqv t es => simp [Val.lenOf] at hlen
  | case4 x xlen i reg hlt v hx hn hs n hlen e helems =>
    intro h1 h2 h3
    exfalso
    have hg := h2 v (mem_drop_of_getElem? hx)
    cases v with
    | atom t p => simp [Val.lenOf] at hlen
    | badseq t m => simp [GoodV] at hg
    | seqv t es => simp [Val.elemsOf] at helems
  | case5 x xlen i reg hlt v hx hn hs n hlen es helems ih =>
    intro h1 h2 h3
    cases v with
    | atom t p => simp [Val.lenOf] at hlen
    | badseq t m => simp [Val.elemsOf] at helems
    | seqv t es' =>
      have hes : es' = es := by simpa [Val.elemsOf] using helems
      subst hes
      have hnn : n = es'.length := by simpa [Val.lenOf] using hlen.symm
      subst hnn
      simp only [Val.cls] at hn hs
      have hlt' : i < x.length := (List.getElem?_eq_some.mp hx).1
      have hf : flattens env reg t = true := flattens_true_of_seq hn hs
      have hgood : GoodL env reg es' = true :=
        GoodV_seqv_elems (h2 _ (mem_drop_of_getElem? hx)) hf
      obtain ⟨reg', hEq, hEv, hAll⟩ := ih
        (by rw [length_splice hlt']; omega)
        (fun w hw => by
          rw [drop_splice (Nat.le_of_lt hlt')] at hw
          rcases List.mem_append.mp hw with hw | hw
          · exact GoodL_iff.mp hgood w hw
          · exact h2 w (by
              rw [drop_succ_of_getElem? hx]
              exact List.mem_cons_of_mem _ hw))
        (fun w hw => h3 w (by rwa [take_splice (Nat.le_of_lt hlt')] at hw))
      have hshuffle :
          (x.take i ++ es' ++ x.drop (i + 1)).take i ++
              flattenL env reg ((x.take i ++ es' ++ x.drop (i + 1)).drop i) =
            x.take i ++ flattenL env reg (x.drop i) := by
        rw [take_splice (Nat.le_of_lt hlt'), drop_splice (Nat.le_of_lt hlt'),
          drop_succ_of_getElem? hx, flattenL, flattenV_seqv hf,
          flattenL_append]
      refine ⟨reg', ?_, hEv, ?_⟩
      · rw [normLoop_seq hlt hx hn hs, hEq, hshuffle]
      · rw [← hshuffle]; exact hAll
  | case6 x xlen i reg hlt v hx hn hs h1 h2 ih =>
    intro ha hb hc
    have hstep : RegEvolves env reg (reg.addNative v.cls) :=
      regEvolves_addNative hs h1 h2
    have hd := drop_succ_of_getElem? hx
    have hkeep : flattenV env reg v = [v] :=
      flattenV_keep (flattens_false_of_strlike hs h2)
    obtain ⟨reg', hEq, hEv, hAll⟩ := ih ha
      (fun w hw => by
        rw [GoodV_congr hstep]
        exact hb w (by rw [hd]; exact List.mem_cons_of_mem _ hw))
      (fun w hw => by
        rw [take_succ_of_getElem? hx] at hw
        rcases List.mem_append.mp hw with hw | hw
        · exact (hc w hw).mono hstep
        · rw [List.mem_singleton.mp hw]
          exact Or.inl (by
            simp [Registry.addNative, List.mem_insert_iff]))
    have hshuffle : x.take (i + 1) ++ flattenL env reg (x.drop (i + 1)) =
        x.take i ++ flattenL env reg (x.drop i) := by
      rw [take_succ_of_getElem? hx, hd, flattenL, hkeep]
      simp
    refine ⟨reg', ?_, hstep.trans hEv, ?_⟩
    · rw [normLoop_strlike hlt hx hn hs h1 h2, hEq, flattenL_congr hstep,
        hshuffle]
    · rw [← hshuffle, ← flattenL_congr hstep]; exact hAll
  | case7 x xlen i reg hlt v hx hn hs h1 h2 e hlen =>
    intro ha hb hc
    exfalso
    have hg := hb v (mem_drop_of_getElem? hx)
    have h2' : env.isStrSub v.cls = false := Bool.not_eq_true _ |>.mp h2
    cases v with
    | atom t p =>
      have hfalse := GoodV_atom_keep hg
      have htrue := @flattens_true_of_sub env reg _ hn h1 h2'
      simp only [Val.cls] at htrue
      rw [htrue] at hfalse
      cases hfalse
    | badseq t m => simp [Val.lenOf] at hlen
    | seqv t es => simp [Val.lenOf] at hlen
  | case8 x xlen i reg hlt v hx hn hs h1 h2 n hlen e helems =>
    intro ha hb hc
    exfalso
    have hg := hb v (mem_drop_of_getElem? hx)
    cases v with
    | atom t p => simp [Val.lenOf] at hlen
    | badseq t m => simp [GoodV] at hg
    | seqv t es => simp [Val.elemsOf] at helems
  | case9 x xlen i reg hlt v hx hn hs h1 h2 n hlen es helems ih =>
    intro ha hb hc
    cases v with
    | atom t p => simp [Val.lenOf] at hlen
    | badseq t m => simp [Val.elemsOf] at helems
    | seqv t es' =>
      have hes : es' = es := by simpa [Val.elemsOf] using helems
      subst hes
      have hnn : n = es'.length := by simpa [Val.lenOf] using hlen.symm
      subst hnn
      simp only [Val.cls] at hn hs h1 h2 ih
      have h2' : env.isStrSub t = false := Bool.not_eq_true _ |>.mp h2
      have hstep : RegEvolves env reg (Registry.addSeq reg t) :=
        regEvolves_addSeq hn h1 h2'
      have hlt' : i < x.length := (List.getElem?_eq_some.mp hx).1
      have hf : flattens env reg t = true := flattens_true_of_sub hn h1 h2'
      have hgood : GoodL env reg es' = true :=
        GoodV_seqv_elems (hb _ (mem_drop_of_getElem? hx)) hf
      obtain ⟨reg', hEq, hEv, hAll⟩ := ih
        (by rw [length_splice hlt']; omega)
        (fun w hw => by
          rw [GoodV_congr hstep]
          rw [drop_splice (Nat.le_of_lt hlt')] at hw
          rcases List.mem_append.mp hw with hw | hw
          · exact GoodL_iff.mp hgood w hw
          · exact hb w (by
              rw [drop_succ_of_getElem? hx]
              exact List.mem_cons_of_mem _ hw))
        (fun w hw => by
          rw [take_splice (Nat.le_of_lt hlt')] at hw
          exact (hc w hw).mono hstep)
      have hshuffle :
          (x.take i ++ es' ++ x.drop (i + 1)).take i ++
              flattenL env reg ((x.take i ++ es' ++ x.drop (i + 1)).drop i) =
            x.take i ++ flattenL env reg (x.drop i) := by
        rw [take_splice (Nat.le_of_lt hlt'), drop_splice (Nat.le_of_lt hlt'),
          drop_succ_of_getElem? hx, flattenL, flattenV_seqv hf,
          flattenL_append]
      refine ⟨reg', ?_, hstep.trans hEv, ?_⟩
      · rw [normLoop_learn hlt hx hn hs h1 h2', hEq, flattenL_congr hstep,
          hshuffle]
      · rw [← hshuffle, ← flattenL_congr hstep]; exact hAll
  | case10 x xlen i reg hlt v hx hn hs h1 ih =>
    intro ha hb hc
    have h1' : env.isSeqSub v.cls = false := Bool.not_eq_true _ |>.mp h1
    have hd := drop_succ_of_getElem? hx
    have hkeep : flattenV env reg v = [v] :=
      flattenV_keep (flattens_false_of_other hs h1')
    obtain ⟨reg', hEq, hEv, hAll⟩ := ih ha
      (fun w hw => hb w (by rw [hd]; exact List.mem_cons_of_mem _ hw))
      (fun w hw => by
        rw [take_succ_of_getElem? hx] at hw
        rcases List.mem_append.mp hw with hw | hw
        · exact hc w hw
        · rw [List.mem_singleton.mp hw]; exact Or.inr ⟨hs, h1'⟩)
    have hshuffle : x.take (i + 1) ++ flattenL env reg (x.drop (i + 1)) =
        x.take i ++ flattenL env reg (x.drop i) := by
      rw [take_succ_of_getElem? hx, hd, flattenL, hkeep]
      simp
    refine ⟨reg', ?_, hEv, ?_⟩
    · rw [normLoop_other hlt hx hn hs h1', hEq, hshuffle]
    · rw [← hshuffle]; exact hAll
  | case11 x xlen i reg h =>
    intro h1 h2 h3
    have hge : x.length ≤ i := by omega
    refine ⟨reg, ?_, RegEvolves.refl env reg, ?_⟩
    · rw [normLoop_exit h, List.drop_eq_nil_of_le hge,
        List.take_of_length_le hge]
      simp [flattenL, h1]
    · intro w hw
      rw [List.drop_eq_nil_of_le hge, List.take_of_length_le hge] at hw
      simp only [flattenL, List.append_nil] at hw
      exact h3 w (by rwa [List.take_of_length_le hge])

/-- A loop pass over fully resolved elements advances straight through:
no splice, no registry change, no error. -/
theorem normLoop_of_resolved (env : TypeEnv) (x : List Val) :
    ∀ k i reg, x.length - i ≤ k →
      (∀ v ∈ x.drop i, Resolved env reg v) →
      normLoop env x x.length i reg = (reg, .ok (x, x.length)) := by
  intro k
  induction k with
  | zero =>
    intro i reg hk hres
    exact normLoop_exit (by omega)
  | succ k ih =>
    intro i reg hk hres
    by_cases hi : i < x.length
    · have hx : x[i]? = some x[i] := List.getElem?_eq_getElem hi
      have hv := hres _ (mem_drop_of_getElem? hx)
      have hnext : ∀ v ∈ x.drop (i + 1), Resolved env reg v := fun w hw =>
        hres w (by
          rw [drop_succ_of_getElem? hx]
          exact List.mem_cons_of_mem _ hw)
      by_cases hnat : x[i].cls ∈ reg.native_types
      · rw [normLoop_native hi hx hnat]
        exact ih (i + 1) reg (by omega) hnext
      · rcases hv with hv | ⟨hs2, hsub⟩
        · exact absurd hv hnat
        · rw [normLoop_other hi hx hnat hs2 hsub]
          exact ih (i + 1) reg (by omega) hnext
    · exact normLoop_exit hi

theorem packResult_of_ne_one {l : List Val} (h : l.length ≠ 1) :
    packResult l = .tup l := by
  cases l with
  | nil => rfl
  | cons a t =>
    cases t with
    | nil => simp at h
    | cons b u => rfl

/-- Main correctness of `normalize_index` on well-behaved input: the
call succeeds and returns the depth-first left-to-right flattening of
the input (packed by the single-element-unwrap policy), growing the
registry only by learning, and every element of the flattening is left
resolved. -/
theorem normalize_index_main (env : TypeEnv) (reg : Registry) (v : Val)
    (hg : GoodV env reg v = true) :
    ∃ reg',
      normalize_index env reg v =
        (reg', .ok (packResult (flattenV env reg v))) ∧
      RegEvolves env reg reg' ∧
      ∀ w ∈ flattenV env reg v, Resolved env reg' w := by
  by_cases hn : v.cls ∈ reg.native_types
  · refine ⟨reg, ?_, .refl env reg, ?_⟩
    · rw [normalize_index, if_pos hn,
        flattenV_keep (flattens_false_of_native hn)]
      rfl
    · rw [flattenV_keep (flattens_false_of_native hn)]
      intro w hw
      rw [List.mem_singleton.mp hw]
      exact Or.inl hn
  · by_cases hs : v.cls ∈ reg.sequence_types
    · have hf : flattens env reg v.cls = true := flattens_true_of_seq hn hs
      cases v with
      | atom t p =>
        have := GoodV_atom_keep hg
        simp only [Val.cls] at hf
        rw [hf] at this
        cases this
      | badseq t m => simp [GoodV] at hg
      | seqv t es =>
        simp only [Val.cls] at hn hs hf
        have hgood : GoodL env reg es = true := GoodV_seqv_elems hg hf
        obtain ⟨reg', hEq, hEv, hAll⟩ := normLoop_main env es es.length 0 reg
          rfl (by simpa using GoodL_iff.mp hgood) (by simp)
        simp only [List.take_zero, List.drop_zero, List.nil_append] at hEq hAll
        refine ⟨reg', ?_, hEv, ?_⟩
        · rw [normalize_index]
          simp only [Val.cls]
          rw [if_neg hn, if_pos hs]
          simp only [Val.elemsOf]
          rw [hEq, flattenV_seqv hf]
          by_cases hone : (flattenL env reg es).length = 1
          · obtain ⟨w, hw⟩ := List.length_eq_one.mp hone
            rw [hw]
            simp [packResult]
          · rw [packResult_of_ne_one hone]
            simp [hone]
        · rw [flattenV_seqv hf]
          exact hAll
    · have hx0 : ∀ w ∈ ([v] : List Val).drop 0, GoodV env reg w = true := by
        simpa using hg
      obtain ⟨reg', hEq, hEv, hAll⟩ := normLoop_main env [v] 1 0 reg rfl hx0
        (by simp)
      simp only [List.take_zero, List.drop_zero, List.nil_append] at hEq hAll
      have hfl : flattenL env reg [v] = flattenV env reg v := by
        rw [flattenL, flattenL, List.append_nil]
      rw [hfl] at hEq hAll
      refine ⟨reg', ?_, hEv, ?_⟩
      · simp only [normalize_index, hn, hs, if_false, List.length_singleton]
        rw [hEq]
        by_cases hone : (flattenV env reg v).length = 1
        · obtain ⟨w, hw⟩ := List.length_eq_one.mp hone
          rw [hw]
          simp [packResult]
        · rw [packResult_of_ne_one hone]
          simp [hone]
      · exact hAll

/-- The registry component of any loop run (success or error) evolves
only by learning: both sets grow monotonically and every addition is a
correctly classified, previously unclassified sequence subclass. -/
theorem normLoop_evolves (env : TypeEnv) (x : List Val) (xlen i : Nat)
    (reg : Registry) :
    RegEvolves env reg (normLoop env x xlen i reg).1 := by
  induction x, xlen, i, reg using normLoop.induct env with
  | case1 x xlen i reg hlt hx =>
    rw [normLoop_oob hlt hx]
    exact .refl env reg
  | case2 x xlen i reg hlt v hx hn ih =>
    rw [normLoop_native hlt hx hn]
    exact ih
  | case3 x xlen i reg hlt v hx hn hs e hlen =>
    cases v with
    | atom t p =>
      rw [normLoop_seq_atom hlt hx hn hs]
      exact .refl env reg
    | badseq t n => simp [Val.lenOf] at hlen
    | seqv t es => simp [Val.lenOf] at hlen
  | case4 x xlen i reg hlt v hx hn hs n hlen e helems =>
    cases v with
    | atom t p => simp [Val.lenOf] at hlen
    | badseq t m =>
      rw [normLoop_seq_badseq hlt hx hn hs]
      exact .refl env reg
    | seqv t es => simp [Val.elemsOf] at helems
  | case5 x xlen i reg hlt v hx hn hs n hlen es helems ih =>
    cases v with
    | atom t p => simp [Val.lenOf] at hlen
    | badseq t m => simp [Val.elemsOf] at helems
    | seqv t es' =>
      have hes : es' = es := by simpa [Val.elemsOf] using helems
      subst hes
      have hnn : n = es'.length := by simpa [Val.lenOf] using hlen.symm
      subst hnn
      rw [normLoop_seq hlt hx hn hs]
      exact ih
  | case6 x xlen i reg hlt v hx hn hs h1 h2 ih =>
    rw [normLoop_strlike hlt hx hn hs h1 h2]
    exact (regEvolves_addNative hs h1 h2).trans ih
  | case7 x xlen i reg hlt v hx hn hs h1 h2 e hlen =>
    have h2' : env.isStrSub v.cls = false := Bool.not_eq_true _ |>.mp h2
    cases v with
    | atom t p =>
      rw [normLoop_learn_atom hlt hx hn hs h1 h2']
      exact regEvolves_addSeq hn h1 h2'
    | badseq t m => simp [Val.lenOf] at hlen
    | seqv t es => simp [Val.lenOf] at hlen
  | case8 x xlen i reg hlt v hx hn hs h1 h2 n hlen e helems =>
    have h2' : env.isStrSub v.cls = false := Bool.not_eq_true _ |>.mp h2
    cases v with
    | atom t p => simp [Val.lenOf] at hlen
    | badseq t m =>
      rw [normLoop_learn_badseq hlt hx hn hs h1 h2']
      exact regEvolves_addSeq hn h1 h2'
    | seqv t es => simp [Val.elemsOf] at helems
  | case9 x xlen i reg hlt v hx hn hs h1 h2 n hlen es helems ih =>
    cases v with
    | atom t p => simp [Val.lenOf] at hlen
    | badseq t m => simp [Val.elemsOf] at helems
    | seqv t es' =>
      have hes : es' = es := by simpa [Val.elemsOf] using helems
      subst hes
      have hnn : n = es'.length := by simpa [Val.lenOf] using hlen.symm
      subst hnn
      simp only [Val.cls] at hn hs h1 h2 ih
      have h2' : env.isStrSub t = false := Bool.not_eq_true _ |>.mp h2
      rw [normLoop_learn hlt hx hn hs h1 h2']
      exact (regEvolves_addSeq hn h1 h2').trans ih
  | case10 x xlen i reg hlt v hx hn hs h1 ih =>
    have h1' : env.isSeqSub v.cls = false := Bool.not_eq_true _ |>.mp h1
    rw [normLoop_other hlt hx hn hs h1']
    exact ih
  | case11 x xlen i reg h =>
    rw [normLoop_exit h]
    exact .refl env reg

/-- The registry component of any `normalize_index` call (success or
error) evolves only by learning. -/
theorem normalize_index_evolves (env : TypeEnv) (reg : Registry) (v : Val) :
    RegEvolves env reg (normalize_index env reg v).1 := by
  rw [normalize_index]
  by_cases hn : v.cls ∈ reg.native_types
  · rw [if_pos hn]
    exact .refl env reg
  · rw [if_neg hn]
    split
    · exact .refl env reg
    · next x0 heq =>
      have h := normLoop_evolves env x0 x0.length 0 reg
      split
      · next reg' e hloop => rw [hloop] at h; exact h
      · next reg' x1 xlen hloop =>
        rw [hloop] at h
        split
        · split
          · exact h
          · exact h
        · exact h

/-- One unit of fuel per iteration suffices once the fuel exceeds the
total node count of the unprocessed suffix: every iteration strictly
decreases that count, so the `while` loop always terminates. -/
theorem normLoopFuel_eq (env : TypeEnv) (x : List Val) (xlen i : Nat)
    (reg : Registry) :
    ∀ fuel, Val.sizeList (x.drop i) < fuel →
      normLoopFuel env fuel x xlen i reg = some (normLoop env x xlen i reg) := by
  induction x, xlen, i, reg using normLoop.induct env with
  | case1 x xlen i reg hlt hx =>
    intro fuel hf
    cases fuel with
    | zero => omega
    | succ f =>
      rw [normLoop_oob hlt hx]
      simp only [normLoopFuel, if_pos hlt, hx]
  | case2 x xlen i reg hlt v hx hn ih =>
    intro fuel hf
    cases fuel with
    | zero => omega
    | succ f =>
      have hstep := Val.sizeList_drop_succ hx
      have hpos := Val.size_pos v
      rw [normLoop_native hlt hx hn, ← ih f (by omega)]
      simp only [normLoopFuel, if_pos hlt, hx, if_pos hn]
  | case3 x xlen i reg hlt v hx hn hs e hlen =>
    intro fuel hf
    cases fuel with
    | zero => omega
    | succ f =>
      cases v with
      | atom t p =>
        rw [normLoop_seq_atom hlt hx hn hs]
        simp only [normLoopFuel, if_pos hlt, hx, if_neg hn, if_pos hs,
          Val.lenOf]
      | badseq t n => simp [Val.lenOf] at hlen
      | seqv t es => simp [Val.lenOf] at hlen
  | case4 x xlen i reg hlt v hx hn hs n hlen e helems =>
    intro fuel hf
    cases fuel with
    | zero => omega
    | succ f =>
      cases v with
      | atom t p => simp [Val.lenOf] at hlen
      | badseq t m =>
        rw [normLoop_seq_badseq hlt hx hn hs]
        simp only [normLoopFuel, if_pos hlt, hx, if_neg hn, if_pos hs,
          Val.lenOf, Val.elemsOf]
      | seqv t es => simp [Val.elemsOf] at helems
  | case5 x xlen i reg hlt v hx hn hs n hlen es helems ih =>
    intro fuel hf
    cases fuel with
    | zero => omega
    | succ f =>
      cases v with
      | atom t p => simp [Val.lenOf] at hlen
      | badseq t m => simp [Val.elemsOf] at helems
      | seqv t es' =>
        have hes : es' = es := by simpa [Val.elemsOf] using helems
        subst hes
        have hnn : n = es'.length := by simpa [Val.lenOf] using hlen.symm
        subst hnn
        have hlt' : i < x.length := (List.getElem?_eq_some.mp hx).1
        have hstep := Val.sizeList_drop_succ hx
        have hsz : Val.size (.seqv t es') = 1 + Val.sizeList es' := by
          rw [Val.size]
        have harith :
            Val.sizeList ((x.take i ++ es' ++ x.drop (i + 1)).drop i) =
              Val.sizeList es' + Val.sizeList (x.drop (i + 1)) := by
          rw [drop_splice (Nat.le_of_lt hlt'), Val.sizeList_append]
        rw [normLoop_seq hlt hx hn hs, ← ih f (by omega)]
        simp only [normLoopFuel, if_pos hlt, hx, if_neg hn, if_pos hs,
          Val.lenOf, Val.elemsOf]
  | case6 x xlen i reg hlt v hx hn hs h1 h2 ih =>
    intro fuel hf
    cases fuel with
    | zero => omega
    | succ f =>
      have hstep := Val.sizeList_drop_succ hx
      have hpos := Val.size_pos v
      rw [normLoop_strlike hlt hx hn hs h1 h2, ← ih f (by omega)]
      simp only [normLoopFuel, if_pos hlt, hx, if_neg hn, if_neg hs, h1, h2,
        if_true]
  | case7 x xlen i reg hlt v hx hn hs h1 h2 e hlen =>
    intro fuel hf
    cases fuel with
    | zero => omega
    | succ f =>
      have h2' : env.isStrSub v.cls = false := Bool.not_eq_true _ |>.mp h2
      cases v with
      | atom t p =>
        rw [normLoop_learn_atom hlt hx hn hs h1 h2']
        simp only [normLoopFuel, if_pos hlt, hx, if_neg hn, if_neg hs, h1,
          if_true, Val.cls] at h2' ⊢
        simp only [h2', Bool.false_eq_true, if_false, Val.lenOf]
        simp only [Val.cls] at hn hs h1
        rw [if_neg hn, if_neg hs, if_pos h1]
      | badseq t m => simp [Val.lenOf] at hlen
      | seqv t es => simp [Val.lenOf] at hlen
  | case8 x xlen i reg hlt v hx hn hs h1 h2 n hlen e helems =>
    intro fuel hf
    cases fuel with
    | zero => omega
    | succ f =>
      have h2' : env.isStrSub v.cls = false := Bool.not_eq_true _ |>.mp h2
      cases v with
      | atom t p => simp [Val.lenOf] at hlen
      | badseq t m =>
        rw [normLoop_learn_badseq hlt hx hn hs h1 h2']
        simp only [normLoopFuel, if_pos hlt, hx, if_neg hn, if_neg hs, h1,
          if_true, Val.cls] at h2' ⊢
        simp only [h2', Bool.false_eq_true, if_false, Val.lenOf, Val.elemsOf]
        simp only [Val.cls] at hn hs h1
        rw [if_neg hn, if_neg hs, if_pos h1]
      | seqv t es => simp [Val.elemsOf] at helems
  | case9 x xlen i reg hlt v hx hn hs h1 h2 n hlen es helems ih =>
    intro fuel hf
    cases fuel with
    | zero => omega
    | succ f =>
      cases v with
      | atom t p => simp [Val.lenOf] at hlen
      | badseq t m => simp [Val.elemsOf] at helems
      | seqv t es' =>
        have hes : es' = es := by simpa [Val.elemsOf] using helems
        subst hes
        have hnn : n = es'.length := by simpa [Val.lenOf] using hlen.symm
        subst hnn
        simp only [Val.cls] at hn hs h1 h2 ih
        have h2' : env.isStrSub t = false := Bool.not_eq_true _ |>.mp h2
        have hlt' : i < x.length := (List.getElem?_eq_some.mp hx).1
        have hstep := Val.sizeList_drop_succ hx
        have hsz : Val.size (.seqv t es') = 1 + Val.sizeList es' := by
          rw [Val.size]
        have harith :
            Val.sizeList ((x.take i ++ es' ++ x.drop (i + 1)).drop i) =
              Val.sizeList es' + Val.sizeList (x.drop (i + 1)) := by
          rw [drop_splice (Nat.le_of_lt hlt'), Val.sizeList_append]
        rw [normLoop_learn hlt hx hn hs h1 h2', ← ih f (by omega)]
        simp only [normLoopFuel, if_pos hlt, hx, if_neg hn, if_neg hs,
          Val.cls, h1, if_true, h2', Bool.false_eq_true, if_false,
          Val.lenOf, Val.elemsOf]
  | case10 x xlen i reg hlt v hx hn hs h1 ih =>
    intro fuel hf
    cases fuel with
    | zero => omega
    | succ f =>
      have h1' : env.isSeqSub v.cls = false := Bool.not_eq_true _ |>.mp h1
      have hstep := Val.sizeList_drop_succ hx
      have hpos := Val.size_pos v
      rw [normLoop_other hlt hx hn hs h1', ← ih f (by omega)]
      simp only [normLoopFuel, if_pos hlt, hx, if_neg hn, if_neg hs, h1',
        Bool.false_eq_true, if_false]
  | case11 x xlen i reg h =>
    intro fuel hf
    cases fuel with
    | zero => omega
    | succ f =>
      rw [normLoop_exit h]
      simp only [normLoopFuel, if_neg h]

/-- Fuel-backed evaluator for `normalize_index`, used to compute
concrete runs by reduction; it agrees with `normalize_index`
(`normalize_indexFuel_eq`). -/
def normalize_indexFuel (env : TypeEnv) (reg : Registry) (x : Val) :
    Option (Registry × Except PyErr NormResult) :=
  if x.cls ∈ reg.native_types then some (reg, .ok (.scalar x))
  else
    match (if x.cls ∈ reg.sequence_types then x.elemsOf else .ok [x]) with
    | .error e => some (reg, .error e)
    | .ok x0 =>
      match normLoopFuel env (Val.sizeList x0 + 1) x0 x0.length 0 reg with
      | none => none
      | some (reg', .error e) => some (reg', .error e)
      | some (reg', .ok (x1, xlen)) =>
        if xlen = 1 then
          match x1[0]? with
          | none => some (reg', .error .indexError)
          | some v0 => some (reg', .ok (.scalar v0))
        else some (reg', .ok (.tup x1))

theorem normalize_indexFuel_eq (env : TypeEnv) (reg : Registry) (v : Val) :
    normalize_indexFuel env reg v = some (normalize_index env reg v) := by
  rw [normalize_indexFuel, normalize_index]
  by_cases hn : v.cls ∈ reg.native_types
  · rw [if_pos hn, if_pos hn]
  · rw [if_neg hn, if_neg hn]
    cases hE : (if v.cls ∈ reg.sequence_types then v.elemsOf
        else Except.ok [v]) with
    | error e => rfl
    | ok x0 =>
      simp only
      rw [normLoopFuel_eq env x0 x0.length 0 reg _
        (by rw [List.drop_zero]; omega)]
      rcases hL : normLoop env x0 x0.length 0 reg with ⟨reg', res⟩
      cases res with
      | error e => rfl
      | ok pr =>
        rcases pr with ⟨x1, xlen⟩
        by_cases hone : xlen = 1
        · simp only [hone, if_true]
          cases h0 : x1[0]? <;> rfl
        · simp only [hone, if_false]
  
theorem normalize_index_eval {env : TypeEnv} {reg : Registry} {v : Val}
    {r : Registry × Except PyErr NormResult}
    (h : normalize_indexFuel env reg v = some r) :
    normalize_index env reg v = r := by
  rw [normalize_indexFuel_eq] at h
  exact Option.some.inj h

/-- Two class hierarchies that agree on every class not classified in
`reg`; they may differ arbitrarily on classified classes. -/
def EnvAgree (env1 env2 : TypeEnv) (reg : Registry) : Prop :=
  ∀ t, t ∉ reg.native_types → t ∉ reg.sequence_types →
    env1.isSeqSub t = env2.isSeqSub t ∧ env1.isStrSub t = env2.isStrSub t

theorem EnvAgree.addNative {env1 env2 : TypeEnv} {reg : Registry}
    {t : TypeId} (h : EnvAgree env1 env2 reg) :
    EnvAgree env1 env2 (reg.addNative t) := fun s hs1 hs2 =>
  h s (fun hmem => hs1 (by
    simp [Registry.addNative, List.mem_insert_iff, hmem])) hs2

theorem EnvAgree.addSeq {env1 env2 : TypeEnv} {reg : Registry}
    {t : TypeId} (h : EnvAgree env1 env2 reg) :
    EnvAgree env1 env2 (reg.addSeq t) := fun s hs1 hs2 =>
  h s hs1 (fun hmem => hs2 (by
    simp [Registry.addSeq, List.mem_insert_iff, hmem]))

/-- The loop consults the class hierarchy (`issubclass`) only for
classes absent from both registry sets: runs under two hierarchies
agreeing on unclassified classes are identical. -/
theorem normLoop_env_indep (env1 env2 : TypeEnv) (x : List Val)
    (xlen i : Nat) (reg : Registry) :
    EnvAgree env1 env2 reg →
    normLoop env1 x xlen i reg = normLoop env2 x xlen i reg := by
  induction x, xlen, i, reg using normLoop.induct env1 with
  | case1 x xlen i reg hlt hx =>
    intro hA
    rw [normLoop_oob hlt hx, normLoop_oob hlt hx]
  | case2 x xlen i reg hlt v hx hn ih =>
    intro hA
    rw [normLoop_native hlt hx hn, normLoop_native hlt hx hn]
    exact ih hA
  | case3 x xlen i reg hlt v hx hn hs e hlen =>
    intro hA
    cases v with
    | atom t p => rw [normLoop_seq_atom hlt hx hn hs,
        normLoop_seq_atom hlt hx hn hs]
    | badseq t n => simp [Val.lenOf] at hlen
    | seqv t es => simp [Val.lenOf] at hlen
  | case4 x xlen i reg hlt v hx hn hs n hlen e helems =>
    intro hA
    cases v with
    | atom t p => simp [Val.lenOf] at hlen
    | badseq t m => rw [normLoop_seq_badseq hlt hx hn hs,
        normLoop_seq_badseq hlt hx hn hs]
    | seqv t es => simp [Val.elemsOf] at helems
  | case5 x xlen i reg hlt v hx hn hs n hlen es helems ih =>
    intro hA
    cases v with
    | atom t p => simp [Val.lenOf] at hlen
    | badseq t m => simp [Val.elemsOf] at helems
    | seqv t es' =>
      have hes : es' = es := by simpa [Val.elemsOf] using helems
      subst hes
      have hnn : n = es'.length := by simpa [Val.lenOf] using hlen.symm
      subst hnn
      rw [normLoop_seq hlt hx hn hs, normLoop_seq hlt hx hn hs]
      exact ih hA
  | case6 x xlen i reg hlt v hx hn hs h1 h2 ih =>
    intro hA
    have h1' : env2.isSeqSub v.cls = true := by
      rw [← (hA _ hn hs).1]; exact h1
    have h2' : env2.isStrSub v.cls = true := by
      rw [← (hA _ hn hs).2]; exact h2
    rw [normLoop_strlike hlt hx hn hs h1 h2,
      normLoop_strlike hlt hx hn hs h1' h2']
    exact ih hA.addNative
  | case7 x xlen i reg hlt v hx hn hs h1 h2 e hlen =>
    intro hA
    have hstr : env1.isStrSub v.cls = false := Bool.not_eq_true _ |>.mp h2
    have h1' : env2.isSeqSub v.cls = true := by
      rw [← (hA _ hn hs).1]; exact h1
    have h2' : env2.isStrSub v.cls = false := by
      rw [← (hA _ hn hs).2]; exact hstr
    cases v with
    | atom t p => rw [normLoop_learn_atom hlt hx hn hs h1 hstr,
        normLoop_learn_atom hlt hx hn hs h1' h2']
    | badseq t m => simp [Val.lenOf] at hlen
    | seqv t es => simp [Val.lenOf] at hlen
  | case8 x xlen i reg hlt v hx hn hs h1 h2 n hlen e helems =>
    intro hA
    have hstr : env1.isStrSub v.cls = false := Bool.not_eq_true _ |>.mp h2
    have h1' : env2.isSeqSub v.cls = true := by
      rw [← (hA _ hn hs).1]; exact h1
    have h2' : env2.isStrSub v.cls = false := by
      rw [← (hA _ hn hs).2]; exact hstr
    cases v with
    | atom t p => simp [Val.lenOf] at hlen
    | badseq t m => rw [normLoop_learn_badseq hlt hx hn hs h1 hstr,
        normLoop_learn_badseq hlt hx hn hs h1' h2']
    | seqv t es => simp [Val.elemsOf] at helems
  | case9 x xlen i reg hlt v hx hn hs h1 h2 n hlen es helems ih =>
    intro hA
    have hstr : env1.isStrSub v.cls = false := Bool.not_eq_true _ |>.mp h2
    have h1' : env2.isSeqSub v.cls = true := by
      rw [← (hA _ hn hs).1]; exact h1
    have h2' : env2.isStrSub v.cls = false := by
      rw [← (hA _ hn hs).2]; exact hstr
    cases v with
    | atom t p => simp [Val.lenOf] at hlen
    | badseq t m => simp [Val.elemsOf] at helems
    | seqv t es' =>
      have hes : es' = es := by simpa [Val.elemsOf] using helems
      subst hes
      have hnn : n = es'.length := by simpa [Val.lenOf] using hlen.symm
      subst hnn
      simp only [Val.cls] at hn hs h1 hstr h1' h2' ih
      rw [normLoop_learn hlt hx hn hs h1 hstr,
        normLoop_learn hlt hx hn hs h1' h2']
      exact ih hA.addSeq
  | case10 x xlen i reg hlt v hx hn hs h1 ih =>
    intro hA
    have hseq : env1.isSeqSub v.cls = false := Bool.not_eq_true _ |>.mp h1
    have h1' : env2.isSeqSub v.cls = false := by
      rw [← (hA _ hn hs).1]; exact hseq
    rw [normLoop_other hlt hx hn hs hseq, normLoop_other hlt hx hn hs h1']
    exact ih hA
  | case11 x xlen i reg h =>
    intro hA
    rw [normLoop_exit h, normLoop_exit h]

/-- The function `normalize_index` consults the class hierarchy only for
unclassified classes. -/
theorem normalize_index_env_indep (env1 env2 : TypeEnv) (reg : Registry)
    (v : Val) (hA : EnvAgree env1 env2 reg) :
    normalize_index env1 reg v = normalize_index env2 reg v := by
  rw [normalize_index, normalize_index]
  by_cases hn : v.cls ∈ reg.native_types
  · rw [if_pos hn, if_pos hn]
  · rw [if_neg hn, if_neg hn]
    cases hE : (if v.cls ∈ reg.sequence_types then v.elemsOf
        else Except.ok [v]) with
    | error e => rfl
    | ok x0 =>
      simp only
      rw [normLoop_env_indep env1 env2 x0 x0.length 0 reg hA]

/-- Class identifier of a user-defined `abc.Sequence` subclass. -/
def customSeqId : TypeId := 6
/-- Class identifier of a user-defined `str` subclass. -/
def customStrId : TypeId := 7

/-- Class hierarchy extending `envStd` with the two custom classes:
`customSeqId` is a non-str sequence subclass, `customStrId` a str-like
sequence subclass. -/
def envCustom : TypeEnv where
  isSeqSub t := decide (t = tupleId) || decide (t = listId) ||
    decide (t = strId) || decide (t = customSeqId) || decide (t = customStrId)
  isStrSub t := decide (t = strId) || decide (t = customStrId)

/-- The value `(1, (2, 3), 4)`. -/
def exNested : Val :=
  .seqv tupleId [.atom intId 1,
    .seqv tupleId [.atom intId 2, .atom intId 3], .atom intId 4]

/-- The value `(1, ((2, 3), 4), (5,))`. -/
def exDeep : Val :=
  .seqv tupleId [.atom intId 1,
    .seqv tupleId [.seqv tupleId [.atom intId 2, .atom intId 3],
      .atom intId 4],
    .seqv tupleId [.atom intId 5]]

/-- The string `"ab"`: a value of class `str` whose iteration yields
its characters. -/
def exStrAB : Val := .seqv strId [.atom strId 97, .atom strId 98]

theorem packResult_singleton (v : Val) : packResult [v] = .scalar v := rfl

/-- A resolved value normalizes to itself as a bare scalar with no
registry change: through the fast path if its class is native, or by
wrap-then-unwrap otherwise. -/
theorem normalize_index_resolved_scalar {env : TypeEnv} {reg : Registry}
    {v : Val} (h : Resolved env reg v) :
    normalize_index env reg v = (reg, .ok (.scalar v)) := by
  by_cases hn : v.cls ∈ reg.native_types
  · rw [normalize_index, if_pos hn]
  · rcases h with h | ⟨hs, hsub⟩
    · exact absurd h hn
    · have hloop := normLoop_of_resolved env [v] 1 0 reg (by simp)
        (by
          intro u hu
          simp only [List.drop_zero] at hu
          rw [List.mem_singleton.mp hu]
          exact Or.inr ⟨hs, hsub⟩)
      simp only [List.length_singleton] at hloop
      simp only [normalize_index, hn, hs, if_false, List.length_singleton]
      rw [hloop]
      rfl

/-- A tuple of resolved values of non-unit length normalizes to itself
as a tuple with no registry change. -/
theorem normalize_index_resolved_tup {env : TypeEnv} {reg : Registry}
    {vs : List Val} (hall : ∀ w ∈ vs, Resolved env reg w)
    (ht : tupleId ∈ reg.sequence_types) (htn : tupleId ∉ reg.native_types)
    (hone : vs.length ≠ 1) :
    normalize_index env reg (.seqv tupleId vs) = (reg, .ok (.tup vs)) := by
  have hloop := normLoop_of_resolved env vs vs.length 0 reg (by omega)
    (by simpa using hall)
  simp only [normalize_index, Val.cls, htn, ht, if_false, if_true,
    Val.elemsOf]
  rw [hloop]
  simp [hone]

/-- C1: `normalize_index` is idempotent.  For every finite, acyclic,
well-behaved input value, if a call succeeds then feeding its result
back into `normalize_index` (against the registry state the first call
left behind) returns exactly the same result and leaves the registry
unchanged. -/
theorem normalize_index_idempotent (env : TypeEnv) (reg : Registry)
    (v : Val) (hg : GoodV env reg v = true)
    (ht : tupleId ∈ reg.sequence_types)
    (htn : tupleId ∉ reg.native_types) :
    ∀ reg' r, normalize_index env reg v = (reg', .ok r) →
      normalize_index env reg' r.toVal = (reg', .ok r) := by
  intro reg' r hrun
  obtain ⟨reg0, hEq, hEv, hAll⟩ := normalize_index_main env reg v hg
  rw [hrun] at hEq
  injection hEq with h1 h2
  subst h1
  injection h2 with h2
  subst h2
  by_cases hone : (flattenV env reg v).length = 1
  · obtain ⟨w, hw⟩ := List.length_eq_one.mp hone
    rw [hw, packResult_singleton]
    simp only [NormResult.toVal]
    exact normalize_index_resolved_scalar
      (hAll w (by rw [hw]; exact List.mem_singleton_self w))
  · rw [packResult_of_ne_one hone]
    simp only [NormResult.toVal]
    exact normalize_index_resolved_tup hAll (hEv.seqMono _ ht)
      (fun hmem => (hEv.natNew _ hmem htn).2.2 ht) hone

/-- C1 witness: idempotence instantiated on `(1, (2, 3), 4)`, whose
first pass yields the tuple `(1, 2, 3, 4)`. -/
theorem normalize_index_idempotent_witness :
    GoodV envStd initRegistry exNested = true ∧
    normalize_index envStd initRegistry
        (NormResult.tup [.atom intId 1, .atom intId 2, .atom intId 3,
          .atom intId 4]).toVal =
      (initRegistry, .ok (.tup [.atom intId 1, .atom intId 2,
        .atom intId 3, .atom intId 4])) :=
  ⟨rfl, normalize_index_idempotent envStd initRegistry exNested rfl
    (by decide) (by decide) initRegistry
    (.tup [.atom intId 1, .atom intId 2, .atom intId 3, .atom intId 4])
    (normalize_index_eval rfl)⟩

/-- C2: on well-behaved input the loop of `normalize_index` computes
exactly the recursive depth-first, left-to-right flattening
`flattenV`, which preserves sibling order at every nesting level; in
particular `normalize_index (1, (2, 3), 4) = (1, 2, 3, 4)` and
`normalize_index (1, ((2, 3), 4), (5,)) = (1, 2, 3, 4, 5)`. -/
theorem normalize_index_depth_first :
    (∀ (env : TypeEnv) (reg : Registry) (v : Val), GoodV env reg v = true →
      ∃ reg', normalize_index env reg v =
        (reg', .ok (packResult (flattenV env reg v)))) ∧
    (normalize_index envStd initRegistry exNested).2 =
      .ok (.tup [.atom intId 1, .atom intId 2, .atom intId 3,
        .atom intId 4]) ∧
    (normalize_index envStd initRegistry exDeep).2 =
      .ok (.tup [.atom intId 1, .atom intId 2, .atom intId 3, .atom intId 4,
        .atom intId 5]) := by
  refine ⟨fun env reg v hg => ?_, ?_, ?_⟩
  · obtain ⟨reg', hEq, _, _⟩ := normalize_index_main env reg v hg
    exact ⟨reg', hEq⟩
  · rw [@normalize_index_eval envStd initRegistry exNested
      (initRegistry, .ok (.tup [.atom intId 1,
      .atom intId 2, .atom intId 3, .atom intId 4])) rfl]
  · rw [@normalize_index_eval envStd initRegistry exDeep
      (initRegistry, .ok (.tup [.atom intId 1,
      .atom intId 2, .atom intId 3, .atom intId 4, .atom intId 5])) rfl]

/-- C2 witness: the general flattening statement instantiated on
`(1, ((2, 3), 4), (5,))`. -/
theorem normalize_index_depth_first_witness :
    GoodV envStd initRegistry exDeep = true ∧
    ∃ reg', normalize_index envStd initRegistry exDeep =
      (reg', .ok (packResult (flattenV envStd initRegistry exDeep))) :=
  ⟨rfl, normalize_index_depth_first.1 envStd initRegistry exDeep rfl⟩

/-- C3: result-arity policy.  If the flattening of a well-behaved
input has length exactly one, the sole element is returned as a bare
scalar; an empty flattening is returned as the empty tuple, not
unwrapped.  Concretely `normalize_index (7,) = 7`,
`normalize_index [7] = 7`, and `normalize_index () = ()`. -/
theorem normalize_index_arity_policy :
    (∀ (env : TypeEnv) (reg : Registry) (v : Val), GoodV env reg v = true →
      (∀ w, flattenV env reg v = [w] →
        ∃ reg', normalize_index env reg v = (reg', .ok (.scalar w))) ∧
      (flattenV env reg v = [] →
        ∃ reg', normalize_index env reg v = (reg', .ok (.tup [])))) ∧
    normalize_index envStd initRegistry (.seqv tupleId [.atom intId 7]) =
      (initRegistry, .ok (.scalar (.atom intId 7))) ∧
    normalize_index envStd initRegistry (.seqv listId [.atom intId 7]) =
      (initRegistry, .ok (.scalar (.atom intId 7))) ∧
    normalize_index envStd initRegistry (.seqv tupleId []) =
      (initRegistry, .ok (.tup [])) := by
  refine ⟨fun env reg v hg => ⟨fun w hw => ?_, fun hw => ?_⟩, ?_, ?_, ?_⟩
  · obtain ⟨reg', hEq, _, _⟩ := normalize_index_main env reg v hg
    rw [hw, packResult_singleton] at hEq
    exact ⟨reg', hEq⟩
  · obtain ⟨reg', hEq, _, _⟩ := normalize_index_main env reg v hg
    rw [hw] at hEq
    exact ⟨reg', hEq⟩
  · exact normalize_index_eval rfl
  · exact normalize_index_eval rfl
  · exact normalize_index_eval rfl

/-- C3 witness: the single-element-unwrap statement instantiated on
`((7,),)`, whose flattening is the one-element list `[7]`. -/
theorem normalize_index_arity_policy_witness :
    GoodV envStd initRegistry (.seqv tupleId [.seqv tupleId
      [.atom intId 7]]) = true ∧
    flattenV envStd initRegistry (.seqv tupleId [.seqv tupleId
      [.atom intId 7]]) = [.atom intId 7] ∧
    ∃ reg', normalize_index envStd initRegistry (.seqv tupleId
      [.seqv tupleId [.atom intId 7]]) =
        (reg', .ok (.scalar (.atom intId 7))) :=
  ⟨rfl, rfl,
    ((normalize_index_arity_policy.1 envStd initRegistry
      (.seqv tupleId [.seqv tupleId [.atom intId 7]]) rfl).1
      (.atom intId 7) rfl)⟩

/-- C4: identity on atomics.  A value whose class is registered native
is returned as-is through the fast path, with no wrapping and no
registry change; an unclassified value whose class is not structurally
a sequence is returned unchanged via wrap-then-unwrap, also with no
registry change; concretely `normalize_index 7 = 7`. -/
theorem normalize_index_native_identity :
    (∀ (env : TypeEnv) (reg : Registry) (v : Val),
      v.cls ∈ reg.native_types →
      normalize_index env reg v = (reg, .ok (.scalar v))) ∧
    (∀ (env : TypeEnv) (reg : Registry) (v : Val),
      v.cls ∉ reg.native_types → v.cls ∉ reg.sequence_types →
      env.isSeqSub v.cls = false →
      normalize_index env reg v = (reg, .ok (.scalar v))) ∧
    normalize_index envStd initRegistry (.atom intId 7) =
      (initRegistry, .ok (.scalar (.atom intId 7))) := by
  refine ⟨fun env reg v h => ?_, fun env reg v hn hs hsub => ?_, ?_⟩
  · exact normalize_index_resolved_scalar (Or.inl h)
  · exact normalize_index_resolved_scalar (Or.inr ⟨hs, hsub⟩)
  · exact normalize_index_resolved_scalar (Or.inl (by decide))

/-- C4 witness: the fast path on the string `"ab"` (class `str`,
pre-seeded native): the value is returned unchanged, internal
structure and all. -/
theorem normalize_index_native_identity_witness :
    exStrAB.cls ∈ initRegistry.native_types ∧
    normalize_index envStd initRegistry exStrAB =
      (initRegistry, .ok (.scalar exStrAB)) :=
  ⟨by decide, normalize_index_native_identity.1 envStd initRegistry exStrAB
    (by decide)⟩

/-- C5: string-like sequences are never flattened element-by-element.
A value whose class is a `str` subclass not registered as a sequence
is kept intact by the flattening; when the loop meets an unclassified
str-like sequence element it permanently registers its class as native
and keeps the element as-is; concretely
`normalize_index ("ab", 1) = ("ab", 1)`. -/
theorem normalize_index_string_exception :
    (∀ (env : TypeEnv) (reg : Registry) (v : Val),
      env.isStrSub v.cls = true → v.cls ∉ reg.sequence_types →
      flattenV env reg v = [v]) ∧
    (∀ (env : TypeEnv) (x : List Val) (xlen i : Nat) (reg : Registry)
        (v : Val),
      i < xlen → x[i]? = some v →
      v.cls ∉ reg.native_types → v.cls ∉ reg.sequence_types →
      env.isSeqSub v.cls = true → env.isStrSub v.cls = true →
      normLoop env x xlen i reg =
        normLoop env x xlen (i + 1) (reg.addNative v.cls) ∧
      v.cls ∈ (normLoop env x xlen i reg).1.native_types) ∧
    normalize_index envStd initRegistry
        (.seqv tupleId [exStrAB, .atom intId 1]) =
      (initRegistry, .ok (.tup [exStrAB, .atom intId 1])) := by
  refine ⟨fun env reg v h1 h2 => ?_,
    fun env x xlen i reg v hlt hx hn hs h1 h2 => ⟨?_, ?_⟩, ?_⟩
  · exact flattenV_keep (flattens_false_of_strlike h2 h1)
  · exact normLoop_strlike hlt hx hn hs h1 h2
  · rw [normLoop_strlike hlt hx hn hs h1 h2]
    exact (normLoop_evolves env x xlen (i + 1) (reg.addNative v.cls)).natMono
      _ (by simp [Registry.addNative, List.mem_insert_iff])
  · exact normalize_index_eval rfl

/-- C5 witness: the learning branch instantiated on a value of the
custom `str` subclass: the loop registers `customStrId` as native and
the element survives intact. -/
theorem normalize_index_string_exception_witness :
    envCustom.isStrSub (Val.seqv customStrId [.atom strId 99]).cls = true ∧
    normLoop envCustom [.seqv customStrId [.atom strId 99]] 1 0
        initRegistry =
      normLoop envCustom [.seqv customStrId [.atom strId 99]] 1 1
        (initRegistry.addNative customStrId) ∧
    customStrId ∈ (normLoop envCustom
      [.seqv customStrId [.atom strId 99]] 1 0 initRegistry).1.native_types :=
  ⟨rfl,
    ((normalize_index_string_exception.2.1 envCustom
      [.seqv customStrId [.atom strId 99]] 1 0 initRegistry
      (.seqv customStrId [.atom strId 99])
      (by decide) rfl (by decide) (by decide) rfl rfl)).1,
    ((normalize_index_string_exception.2.1 envCustom
      [.seqv customStrId [.atom strId 99]] 1 0 initRegistry
      (.seqv customStrId [.atom strId 99])
      (by decide) rfl (by decide) (by decide) rfl rfl)).2⟩

/-- C6: registry invariant.  Across any `normalize_index` call
(successful or raising), both registry sets only grow — no class is
ever removed — and if `native_types` and `sequence_types` are disjoint
before the call they remain disjoint after it. -/
theorem normalize_index_registry_invariant :
    ∀ (env : TypeEnv) (reg : Registry) (v : Val),
      (∀ t ∈ reg.native_types,
        t ∈ (normalize_index env reg v).1.native_types) ∧
      (∀ t ∈ reg.sequence_types,
        t ∈ (normalize_index env reg v).1.sequence_types) ∧
      (reg.disjointSets → (normalize_index env reg v).1.disjointSets) := by
  intro env reg v
  have h := normalize_index_evolves env reg v
  exact ⟨h.natMono, h.seqMono, h.disjointSets_of⟩

/-- C6 witness: the invariant instantiated on a call that learns the
custom sequence class, starting from the pre-seeded registry. -/
theorem normalize_index_registry_invariant_witness :
    (normalize_index envCustom initRegistry
      (.seqv customSeqId [.atom intId 1])).1.disjointSets ∧
    intId ∈ (normalize_index envCustom initRegistry
      (.seqv customSeqId [.atom intId 1])).1.native_types :=
  ⟨(normalize_index_registry_invariant envCustom initRegistry
      (.seqv customSeqId [.atom intId 1])).2.2
      (by
        intro t h1 h2
        simp [initRegistry, intId, floatId, strId, tupleId, listId] at h1 h2
        rcases h1 with h1 | h1 | h1 <;> rcases h2 with h2 | h2 <;> simp_all),
    (normalize_index_registry_invariant envCustom initRegistry
      (.seqv customSeqId [.atom intId 1])).1 intId (by decide)⟩

/-- C7: type learning is one-time, permanent and global.  When the
loop meets an element of an unclassified non-str sequence subclass, it
registers the class in `sequence_types` and splices immediately — the
learned classification serves the remainder of the same call — and the
class is in the returned registry's `sequence_types`.  Moreover,
classified classes are dispatched purely by registry lookup: two class
hierarchies agreeing only on unclassified classes give identical
`normalize_index` results. -/
theorem normalize_index_learning_permanent :
    (∀ (env : TypeEnv) (x : List Val) (xlen i : Nat) (reg : Registry)
        (t : TypeId) (es : List Val),
      i < xlen → x[i]? = some (.seqv t es) →
      t ∉ reg.native_types → t ∉ reg.sequence_types →
      env.isSeqSub t = true → env.isStrSub t = false →
      normLoop env x xlen i reg =
        normLoop env (x.take i ++ es ++ x.drop (i + 1))
          (xlen - 1 + es.length) i (reg.addSeq t) ∧
      t ∈ (normLoop env x xlen i reg).1.sequence_types) ∧
    (∀ (env1 env2 : TypeEnv) (reg : Registry) (v : Val),
      EnvAgree env1 env2 reg →
      normalize_index env1 reg v = normalize_index env2 reg v) := by
  refine ⟨fun env x xlen i reg t es hlt hx hn hs h1 h2 => ⟨?_, ?_⟩,
    normalize_index_env_indep⟩
  · exact normLoop_learn hlt hx hn hs h1 h2
  · rw [normLoop_learn hlt hx hn hs h1 h2]
    exact (normLoop_evolves env _ _ i (reg.addSeq t)).seqMono _
      (by simp [Registry.addSeq, List.mem_insert_iff])

/-- Variant of `envStd` that no longer reports `tuple` as a sequence
subclass; it agrees with `envStd` on every unclassified class. -/
def envNoTup : TypeEnv where
  isSeqSub t := decide (t = listId) || decide (t = strId)
  isStrSub t := decide (t = strId)

/-- C7 witness: learning instantiated on a custom-class element, and
independence instantiated on two hierarchies that disagree on the
registered class `tuple` — flattening of `(1, (2, 3), 4)` is unchanged
because registered classes are never re-inspected. -/
theorem normalize_index_learning_permanent_witness :
    EnvAgree envNoTup envStd initRegistry ∧
    normalize_index envNoTup initRegistry exNested =
      normalize_index envStd initRegistry exNested ∧
    customSeqId ∈ (normLoop envCustom
      [.seqv customSeqId [.atom intId 2]] 1 0
      initRegistry).1.sequence_types := by
  have hag : EnvAgree envNoTup envStd initRegistry := by
    intro t h1 h2
    simp [initRegistry, intId, floatId, strId, tupleId, listId] at h1 h2
    constructor
    · simp [envNoTup, envStd, tupleId, listId, strId, h2.1]
    · rfl
  exact ⟨hag,
    normalize_index_learning_permanent.2 envNoTup envStd initRegistry
      exNested hag,
    (normalize_index_learning_permanent.1 envCustom
      [.seqv customSeqId [.atom intId 2]] 1 0 initRegistry customSeqId
      [.atom intId 2] (by decide) rfl (by decide) (by decide) rfl rfl).2⟩

/-- C8: the splice-without-advance loop terminates on every finite,
acyclic input: running the fuel-counted loop with one unit of fuel per
iteration, a budget of one more than the total node count of the
unprocessed suffix always completes, agreeing with `normLoop`. -/
theorem normLoop_terminates :
    ∀ (env : TypeEnv) (x : List Val) (xlen i : Nat) (reg : Registry),
      normLoopFuel env (Val.sizeList (x.drop i) + 1) x xlen i reg =
        some (normLoop env x xlen i reg) :=
  fun env x xlen i reg =>
    normLoopFuel_eq env x xlen i reg _ (Nat.lt_succ_self _)

/-- C9: malformed input propagates.  A value that reports a length but
raises on iteration, once classified as a sequence (pre-registered, or
learned via the subclass check — in which case the registration
persists), makes the call raise `TypeError` to the caller instead of
being silently kept as a native scalar. -/
theorem normalize_index_error_propagation :
    (∀ (env : TypeEnv) (reg : Registry) (t : TypeId) (n : Nat),
      t ∈ reg.sequence_types → t ∉ reg.native_types →
      normalize_index env reg (.badseq t n) = (reg, .error .typeError)) ∧
    (∀ (env : TypeEnv) (x : List Val) (xlen i : Nat) (reg : Registry)
        (t : TypeId) (n : Nat),
      i < xlen → x[i]? = some (.badseq t n) →
      t ∉ reg.native_types → t ∈ reg.sequence_types →
      normLoop env x xlen i reg = (reg, .error .typeError)) ∧
    (∀ (env : TypeEnv) (x : List Val) (xlen i : Nat) (reg : Registry)
        (t : TypeId) (n : Nat),
      i < xlen → x[i]? = some (.badseq t n) →
      t ∉ reg.native_types → t ∉ reg.sequence_types →
      env.isSeqSub t = true → env.isStrSub t = false →
      normLoop env x xlen i reg = (reg.addSeq t, .error .typeError)) := by
  refine ⟨fun env reg t n hts htn => ?_,
    fun env x xlen i reg t n hlt hx hn hs =>
      normLoop_seq_badseq hlt hx hn hs,
    fun env x xlen i reg t n hlt hx hn hs h1 h2 =>
      normLoop_learn_badseq hlt hx hn hs h1 h2⟩
  rw [normalize_index]
  simp only [Val.cls]
  rw [if_neg htn, if_pos hts]
  simp only [Val.elemsOf]

/-- C9 witness: a partially implemented sequence of the registered
class `list` makes the whole call raise `TypeError`. -/
theorem normalize_index_error_propagation_witness :
    listId ∈ initRegistry.sequence_types ∧
    normalize_index envStd initRegistry (.badseq listId 3) =
      (initRegistry, .error .typeError) :=
  ⟨by decide,
    normalize_index_error_propagation.1 envStd initRegistry listId 3
      (by decide) (by decide)⟩

/-- C10: the process-wide flag `normalize_index.flatten` is exposed
(default `True`) but never consulted by the algorithm: the result of
`normalize_index` is identical for both values of the flag. -/
theorem normalize_index_flag_unused :
    (∀ (b1 b2 : Bool) (env : TypeEnv) (reg : Registry) (v : Val),
      normalize_index_global b1 env reg v =
        normalize_index_global b2 env reg v) ∧
    normalize_index_flatten = true :=
  ⟨fun _ _ _ _ _ => rfl, rfl⟩
